import Mathlib

/-!
# RedLib — verification of the reflection-bridge specification

A shallow embedding of the RedLib reflection bridge (the RED4ext plugin
helper library).  The repository ships a documentation file (README.md)
with concrete example code and an umbrella header; the implementation
headers themselves are not part of the provided sources, so the bridge's
internals (type-name resolver, stack marshaling, invocation shims,
deferred registration pipeline, call-out helpers) are modelled from the
specification, while the README's example code (MyStruct::Inc,
RawExample::Add, the GetTypeName examples) is translated directly.
-/

namespace RedLib

/-! ## Type-Name Resolver -/

/-- Modelled from the spec: the native C++ types the Type-Name Resolver
maps (fundamental types, parameterized containers, handles, ref-wrappers,
and named classes).  The RedLib implementation header holding
`Red::GetTypeName` is not among the provided sources. -/
inductive RType where
  | uint64
  | int32
  | float
  | bool
  | cstring
  | dynArray (elem : RType)
  | handle (elem : RType)
  | weakHandle (elem : RType)
  | scriptRef (elem : RType)
  | cls (name : String)
deriving DecidableEq

/-- Modelled from the spec: `Red::GetTypeName<T>` — the compile-time map
from a native type to its canonical descriptor name.  Primitives map to
fixed builtin names; parameterized containers map to composite names
embedding the recursively resolved element name (README: `uint64_t` maps
to "Uint64", `Red::CString` to "String", `Red::DynArray<Red::Handle<MyClass>>`
to "array:handle:MyClass"). -/
def GetTypeName : RType → String
  | .uint64 => "Uint64"
  | .int32 => "Int32"
  | .float => "Float"
  | .bool => "Bool"
  | .cstring => "String"
  | .dynArray t => "array:" ++ GetTypeName t
  | .handle t => "handle:" ++ GetTypeName t
  | .weakHandle t => "whandle:" ++ GetTypeName t
  | .scriptRef t => "script_ref:" ++ GetTypeName t
  | .cls n => n

/-! ## Stack Marshaling Layer

Values travel between native code and the host over a typed stack of
opaque slots.  The claims cover primitives, enums and flat structs
(structs whose fields are primitives), so values are stratified
accordingly: a `PrimValue` is a single-slot value, a `Value` is either a
primitive or a flat struct. -/

/-- Modelled from the spec: a single-slot (primitive or enum) value as
seen by the Stack Marshaling Layer. -/
inductive PrimValue where
  | i32 (v : Int)
  | u64 (v : Nat)
  | boolV (v : Bool)
  | enumV (v : Nat)
deriving DecidableEq

/-- Modelled from the spec: a marshalable value — a primitive/enum, or a
flat struct whose fields are primitives. -/
inductive Value where
  | prim (p : PrimValue)
  | structV (fields : List PrimValue)
deriving DecidableEq

/-- Modelled from the spec: the descriptor of a single-slot type. -/
inductive PrimType where
  | tInt32
  | tUint64
  | tBool
  | tEnum
deriving DecidableEq

/-- Modelled from the spec: the type descriptor used by the marshaling
layer to read and write one value. -/
inductive TypeDesc where
  | prim (t : PrimType)
  | tStruct (fields : List PrimType)
deriving DecidableEq

/-- Two's-complement encoding of a signed 32-bit integer into one
untyped stack slot. -/
def encodeI32 (v : Int) : Nat := (v % 4294967296).toNat

/-- Two's-complement decoding of one untyped stack slot back to a signed
32-bit integer. -/
def decodeI32 (w : Nat) : Int :=
  if w < 2147483648 then (w : Int) else (w : Int) - 4294967296

/-- Modelled from the spec: writing one primitive value into one untyped
stack slot (call-out write path of the Stack Marshaling Layer). -/
def marshalPrim : PrimValue → Nat
  | .i32 v => encodeI32 v
  | .u64 v => v
  | .boolV b => if b then 1 else 0
  | .enumV v => v

/-- Modelled from the spec: reading one primitive value back from one
untyped stack slot, directed by its type descriptor. -/
def unmarshalPrim : PrimType → Nat → PrimValue
  | .tInt32, w => .i32 (decodeI32 w)
  | .tUint64, w => .u64 w
  | .tBool, w => .boolV (w != 0)
  | .tEnum, w => .enumV w

/-- Modelled from the spec: a primitive value conforms to a primitive
descriptor when its tag matches and it fits the slot's range. -/
def conformsPrim : PrimType → PrimValue → Bool
  | .tInt32, .i32 v => decide (-2147483648 ≤ v) && decide (v < 2147483648)
  | .tUint64, .u64 v => decide (v < 18446744073709551616)
  | .tBool, .boolV _ => true
  | .tEnum, .enumV v => decide (v < 18446744073709551616)
  | _, _ => false

/-- Pointwise conformance of a list of primitive fields to a list of
field descriptors. -/
def conformsFields : List PrimType → List PrimValue → Bool
  | [], [] => true
  | t :: ts, v :: vs => conformsPrim t v && conformsFields ts vs
  | _, _ => false

/-- Modelled from the spec: conformance of a value to a type descriptor. -/
def conforms : TypeDesc → Value → Bool
  | .prim t, .prim v => conformsPrim t v
  | .tStruct ts, .structV vs => conformsFields ts vs
  | _, _ => false

/-- Modelled from the spec: the call-out write path — a value is written
onto the stack as a sequence of untyped slots (one per primitive, fields
of a flat struct in declared order). -/
def marshal : Value → List Nat
  | .prim v => [marshalPrim v]
  | .structV vs => vs.map marshalPrim

/-- Sequential read of a flat struct's fields from the stack, returning
the fields and the remaining slots. -/
def unmarshalFields : List PrimType → List Nat → Option (List PrimValue × List Nat)
  | [], ws => some ([], ws)
  | _ :: _, [] => none
  | t :: ts, w :: ws =>
    match unmarshalFields ts ws with
    | some (vs, rest) => some (unmarshalPrim t w :: vs, rest)
    | none => none

/-- Modelled from the spec: the read-back path — reading one value from
the stack directed by its type descriptor, returning the value and the
remaining slots, or `none` when the stack is exhausted (the layer refuses
to read past the intended argument count). -/
def unmarshal : TypeDesc → List Nat → Option (Value × List Nat)
  | .prim t, w :: ws => some (.prim (unmarshalPrim t w), ws)
  | .prim _, [] => none
  | .tStruct ts, ws =>
    match unmarshalFields ts ws with
    | some (vs, rest) => some (.structV vs, rest)
    | none => none

/-- Modelled from the spec: writing an argument list onto a fresh stack
frame, each argument in declared order (call-out path). -/
def marshalArgs (args : List Value) : List Nat :=
  (args.map marshal).flatten

/-- Modelled from the spec: reading an argument list back from the stack,
one value per declared parameter descriptor, consuming the slots exactly. -/
def unmarshalArgs : List TypeDesc → List Nat → Option (List Value)
  | [], [] => some []
  | [], _ :: _ => none
  | td :: tds, ws =>
    match unmarshal td ws with
    | some (v, rest) =>
      match unmarshalArgs tds rest with
      | some vs => some (v :: vs)
      | none => none
    | none => none

/-- Pointwise conformance of an argument list to its descriptors. -/
def conformsArgs : List TypeDesc → List Value → Bool
  | [], [] => true
  | td :: tds, v :: vs => conforms td v && conformsArgs tds vs
  | _, _ => false

/-! ## Invocation Shims -/

/-- Modelled from the spec: one declared parameter of a reflected method —
its type descriptor and, for `Red::Optional<T, D>` parameters, the
compile-time default value `D`. -/
structure Param where
  ty : TypeDesc
  default : Option Value
deriving DecidableEq

/-- Modelled from the spec: the call-in parameter read of the Stack
Marshaling Layer.  The host supplies the arguments it passed (a prefix of
the declared parameter list, since argument omission is positional); the
layer fills every host-absent trailing parameter with its declared
default, and refuses the call when a non-optional parameter is absent or
too many arguments were supplied. -/
def readParams : List Param → List Value → Option (List Value)
  | [], [] => some []
  | [], _ :: _ => none
  | p :: ps, [] =>
    match p.default with
    | some d =>
      match readParams ps [] with
      | some vs => some (d :: vs)
      | none => none
    | none => none
  | _ :: ps, v :: vs =>
    match readParams ps vs with
    | some rest => some (v :: rest)
    | none => none

/-- The declared default values of a parameter list: `some` defaults when
every parameter is optional-with-default, `none` otherwise. -/
def defaultsOf : List Param → Option (List Value)
  | [] => some []
  | p :: ps =>
    match p.default, defaultsOf ps with
    | some d, some ds => some (d :: ds)
    | _, _ => none

/-- Modelled from the spec: the observable actions a shim performs on the
host's stack frame — invoking the underlying native callable, writing the
return slot, advancing the instruction cursor. -/
inductive ShimEvent where
  | callNative (args : List Value)
  | writeOut (v : Value)
  | advanceCursor
deriving DecidableEq

/-- Modelled from the spec: the host's stack frame as the shim sees it —
an instruction cursor and optional caller metadata. -/
structure StackFrame where
  code : Nat
  func : Option String
deriving DecidableEq

/-- Result of one shim invocation: the event trace, the updated frame,
and the value written to the out slot (none when nothing was written). -/
structure ShimResult where
  events : List ShimEvent
  frame : StackFrame
  outWritten : Option Value
deriving DecidableEq

/-- Modelled from the spec: the generated invocation shim matching the
host's fixed native-call signature.  It reads the declared parameters
(filling trailing defaults), invokes the underlying native callable once,
writes the result to the out slot only when the host requested one
(non-null out slot), and advances the frame's instruction cursor past the
consumed call unconditionally. -/
def invokeShim (native : List Value → Value) (params : List Param)
    (supplied : List Value) (frame : StackFrame) (outRequested : Bool) :
    Option ShimResult :=
  match readParams params supplied with
  | none => none
  | some args =>
    let r := native args
    some { events := ShimEvent.callNative args ::
             ((if outRequested then [ShimEvent.writeOut r] else []) ++
              [ShimEvent.advanceCursor]),
           frame := { frame with code := frame.code + 1 },
           outWritten := if outRequested then some r else none }

/-- Count of native invocations in a shim's event trace. -/
def countCalls (evs : List ShimEvent) : Nat :=
  evs.countP fun e =>
    match e with
    | .callNative _ => true
    | _ => false

/-- Whether a shim's event trace writes any return location. -/
def writesOut (evs : List ShimEvent) : Bool :=
  evs.any fun e =>
    match e with
    | .writeOut _ => true
    | _ => false

/-- Modelled from the spec: the invocation shim for a non-static instance
method.  The member descriptor is a static entry whose first parameter is
the explicit instance pointer; the shim unmarshals the declared arguments
from the stack and applies the native method to the instance, returning
the mutated instance and the result. -/
def methodShim {Inst : Type} (m : Inst → List Value → Inst × Value)
    (tds : List TypeDesc) (inst : Inst) (words : List Nat) :
    Option (Inst × Value) :=
  match unmarshalArgs tds words with
  | some args => some (m inst args)
  | none => none

/-! ## README example code (translated from src/README.md) -/

/-- From README: `MyStruct::Inc` — `value += step; return value;` with
`step` declared `Red::Optional<int32_t, 1>`.  The instance state is the
`value` field. -/
def MyStruct.Inc (value : Int) (args : List Value) : Int × Value :=
  match args with
  | [Value.prim (PrimValue.i32 step)] => (value + step, .prim (.i32 (value + step)))
  | _ => (value, .prim (.i32 value))

/-- From README: the declared parameter list of `MyStruct::Inc` — one
`Int32` parameter, optional with default `1`. -/
def incParams : List Param :=
  [{ ty := .prim .tInt32, default := some (.prim (.i32 1)) }]

/-- From README: the stack frame of a raw native handler — the raw
parameter data still to be read, the instruction cursor, and the calling
function's short name when invoked from host script. -/
structure RawFrame where
  data : List Int
  code : Nat
  func : Option String
deriving DecidableEq

/-- Result of the raw `RawExample::Add` handler: the updated frame, what
was written to the out slot, and the updated `caller` field of `self`. -/
structure RawAddResult where
  frame : RawFrame
  outWritten : Option Int
  caller : String
deriving DecidableEq

/-- From README: the raw native handler `RawExample::Add`.  It reads two
`int32_t` parameters with `GetParameter`, advances `frame->code`
unconditionally, writes `*out = a + b` only when `out` is non-null, and
records the caller's short name when `frame->func` is set. -/
def RawExample.Add (selfCaller : String) (frame : RawFrame) (hasOut : Bool) :
    RawAddResult :=
  let a := frame.data.headD 0
  let b := (frame.data.drop 1).headD 0
  let frame2 : RawFrame :=
    { data := frame.data.drop 2, code := frame.code + 1, func := frame.func }
  { frame := frame2,
    outWritten := if hasOut then some (a + b) else none,
    caller := match frame.func with
      | some f => f
      | none => selfCaller }

/-! ## Deferred Registration Pipeline -/

/-- Modelled from the spec: a queued class-registration thunk — the
class's exposed name, its optionally declared parent (`RTTI_PARENT`), and
whether the class derives from `Red::IGameSystem` (README: such classes
are automatically registered in the game instance). -/
structure ClassThunk where
  name : String
  parent : Option String
  isGameSystem : Bool
deriving DecidableEq

/-- Modelled from the spec: a pending registration queued by the
declaration macros at static-initialization time — an enum, a class, a
global function, or a class extension. -/
inductive RegThunk where
  | enumT (name : String)
  | classT (t : ClassThunk)
  | globalT (name : String)
  | expandT (target : String)
deriving DecidableEq

/-- Modelled from the spec: the registry state the pipeline builds — the
host's type registry partitions (enums, classes, global functions,
applied extensions), the game systems registered in the game instance,
and the hard registration failures reported. -/
structure Registry where
  enums : List String
  classes : List String
  globals : List String
  expansions : List String
  gameSystems : List String
  errors : List String
deriving DecidableEq

/-- Modelled from the spec: finalizing one class thunk — register the
class descriptor and, when the class derives from `Red::IGameSystem`,
additionally register it as a game system in the game instance. -/
def finalizeClass (r : Registry) (t : ClassThunk) : Registry :=
  { r with classes := r.classes ++ [t.name],
           gameSystems := if t.isGameSystem
             then r.gameSystems ++ [t.name]
             else r.gameSystems }

/-- Modelled from the spec: a class thunk is ready when it declares no
parent or its parent is already Finalized. -/
def classReady (r : Registry) (t : ClassThunk) : Bool :=
  match t.parent with
  | none => true
  | some p => r.classes.contains p

/-- Modelled from the spec: one full pass over the class queue — each
thunk is finalized when ready, deferred otherwise (order preserved). -/
def passStep (r : Registry) : List ClassThunk → Registry × List ClassThunk
  | [] => (r, [])
  | t :: ts =>
    if classReady r t then passStep (finalizeClass r t) ts
    else ((passStep r ts).1, t :: (passStep r ts).2)

/-- Modelled from the spec: the bounded retry loop — repeat full passes
over the deferred queue, at most `fuel` of them. -/
def runPasses : Nat → Registry → List ClassThunk → Registry × List ClassThunk
  | 0, r, q => (r, q)
  | _ + 1, r, [] => (r, [])
  | n + 1, r, q => runPasses n (passStep r q).1 (passStep r q).2

/-- Modelled from the spec: the class phase of the pipeline — run retry
passes bounded by the current queue depth; any thunk still deferred after
that (unresolvable or cyclic parent reference) is a hard registration
failure reported in the registry's error list, never silently skipped. -/
def registerClasses (r : Registry) (q : List ClassThunk) : Registry :=
  if (runPasses q.length r q).2.isEmpty then (runPasses q.length r q).1
  else { (runPasses q.length r q).1 with
           errors := (runPasses q.length r q).1.errors ++
             (runPasses q.length r q).2.map
               fun t => "unresolved parent for class " ++ t.name }

/-- Modelled from the spec: a class queue is resolvable (no unresolvable
or cyclic parent reference) when every queued thunk either declares no
parent, or its parent is already registered, or its parent is queued
strictly earlier in some dependency order witnessed by `rank`. -/
def resolvableWith (rank : String → Nat) (r : Registry) (q : List ClassThunk) : Bool :=
  q.all fun t =>
    match t.parent with
    | none => true
    | some p =>
      r.classes.contains p ||
        q.any fun u => u.name == p && decide (rank p < rank t.name)

/-- Modelled from the spec: a grounded parent chain for one queued class
thunk — the chain starts at the thunk, each element's declared parent is
the next element (queued earlier or later, order is irrelevant), and the
last element is ready (no parent, or a parent already Finalized).  Such a
chain exists exactly when the thunk's parent is eventually processed. -/
def groundedChain (r : Registry) (q : List ClassThunk) : List ClassThunk → Bool
  | [] => false
  | [c] => q.contains c && classReady r c
  | c :: d :: rest =>
    q.contains c && (c.parent == some d.name) && groundedChain r q (d :: rest)

/-- Modelled from the spec: a blocked set of queued class thunks — each
has a declared parent that is not already registered, and every queued
thunk bearing that parent's name is itself in the set.  A thunk whose
parent is missing from the queue forms a singleton blocked set, and the
members of a parent cycle form a blocked set, so this captures exactly
the unresolvable parent references of spec 4.4. -/
def blockedSet (r : Registry) (q blocked : List ClassThunk) : Bool :=
  blocked.all fun u =>
    match u.parent with
    | none => false
    | some p =>
      q.contains u && !(r.classes.contains p) &&
        (q.all fun v => !(v.name == p) || blocked.contains v)

/-- The class thunks among a pending queue. -/
def classThunks (pending : List RegThunk) : List ClassThunk :=
  pending.filterMap fun th =>
    match th with
    | .classT t => some t
    | _ => none

/-- The enum names among a pending queue. -/
def enumThunks (pending : List RegThunk) : List String :=
  pending.filterMap fun th =>
    match th with
    | .enumT n => some n
    | _ => none

/-- The global-function names among a pending queue. -/
def globalThunks (pending : List RegThunk) : List String :=
  pending.filterMap fun th =>
    match th with
    | .globalT n => some n
    | _ => none

/-- The class-extension targets among a pending queue. -/
def expandThunks (pending : List RegThunk) : List String :=
  pending.filterMap fun th =>
    match th with
    | .expandT n => some n
    | _ => none

/-- Modelled from the spec: processing one drained queue in dependency
order — enums first (no dependencies), then classes with parent
resolution, then global functions, then class extensions last. -/
def processAll (r : Registry) (pending : List RegThunk) : Registry :=
  let r1 := { r with enums := r.enums ++ enumThunks pending }
  let r2 := registerClasses r1 (classThunks pending)
  let r3 := { r2 with globals := r2.globals ++ globalThunks pending }
  { r3 with expansions := r3.expansions ++ expandThunks pending }

/-- Modelled from the spec: the registrar's process-wide state — the
append-only pending queue populated by static constructors, and the
registry built at load time. -/
structure RegistrarState where
  pending : List RegThunk
  reg : Registry
deriving DecidableEq

namespace TypeInfoRegistrar

/-- Modelled from the spec: `TypeInfoRegistrar::RegisterDiscovered()` —
the load entry point.  It drains the pending queue (each queued thunk is
consumed by `processAll` exactly once) and leaves the queue empty, so a
later call finds nothing to process. -/
def RegisterDiscovered (s : RegistrarState) : RegistrarState :=
  { pending := [], reg := processAll s.reg s.pending }

end TypeInfoRegistrar

/-- Modelled from the spec: `Red::GetGameSystem<T>` — retrieving a
registered game system from the game instance by its class name. -/
def GetGameSystem (r : Registry) (name : String) : Option String :=
  if r.gameSystems.contains name then some name else none

/-! ## Call-Out Helpers and lookup probes -/

/-- Modelled from the spec: the slice of the host's RTTI system the
lookup probes and call-out helpers consult — registered class names with
their member-method names, and registered global-function names. -/
structure RttiSystem where
  classes : List (String × List String)
  globalFuncs : List String
deriving DecidableEq

/-- Modelled from the spec: the recoverable outcome of a call-out — the
call's produced value, or a `notFound` lookup miss the caller can branch
on (never an exceptional or fatal path). -/
inductive CallOutcome (α : Type) where
  | ok (a : α)
  | notFound
deriving DecidableEq

/-- Modelled from the spec: `Red::HasClass` — a boolean feature-detection
probe for a class name. -/
def HasClass (sys : RttiSystem) (name : String) : Bool :=
  (sys.classes.map Prod.fst).contains name

/-- Modelled from the spec: `Red::Detail::HasGlobalFunction` — a boolean
feature-detection probe for a global function name. -/
def HasGlobalFunction (sys : RttiSystem) (name : String) : Bool :=
  sys.globalFuncs.contains name

/-- Whether a class has a member method with the given name. -/
def hasMethod (sys : RttiSystem) (cls fn : String) : Bool :=
  sys.classes.any fun c => c.fst == cls && c.snd.contains fn

/-- Modelled from the spec: `Red::CallGlobal` — resolve the named global
function; a miss is the recoverable `notFound` outcome, a hit marshals
the arguments and invokes the host (abstracted as `impl`). -/
def CallGlobal (impl : String → List Nat → List Nat)
    (sys : RttiSystem) (name : String) (args : List Value) :
    CallOutcome (List Nat) :=
  if HasGlobalFunction sys name then .ok (impl name (marshalArgs args))
  else .notFound

/-- Modelled from the spec: `Red::CallStatic` — resolve the class, then
the named static method; either miss is the recoverable `notFound`
outcome. -/
def CallStatic (impl : String → String → List Nat → List Nat)
    (sys : RttiSystem) (cls fn : String) (args : List Value) :
    CallOutcome (List Nat) :=
  if hasMethod sys cls fn then .ok (impl cls fn (marshalArgs args))
  else .notFound

/-- Modelled from the spec: `Red::CallVirtual` — resolve the named method
through the instance's dynamic class; a miss is the recoverable
`notFound` outcome. -/
def CallVirtual (impl : String → String → List Nat → List Nat)
    (sys : RttiSystem) (dynClass fn : String) (args : List Value) :
    CallOutcome (List Nat) :=
  if hasMethod sys dynClass fn then .ok (impl dynClass fn (marshalArgs args))
  else .notFound

/-! ## Theorems -/

theorem decodeI32_encodeI32 (v : Int) (h1 : -2147483648 ≤ v)
    (h2 : v < 2147483648) : decodeI32 (encodeI32 v) = v := by
  unfold decodeI32 encodeI32
  split <;> omega

theorem unmarshalPrim_marshalPrim (t : PrimType) (v : PrimValue)
    (h : conformsPrim t v = true) : unmarshalPrim t (marshalPrim v) = v := by
  cases t <;> cases v <;> simp_all [conformsPrim, marshalPrim, unmarshalPrim]
  · exact decodeI32_encodeI32 _ h.1 h.2
  · rename_i b
    cases b <;> simp [decide]

theorem unmarshalFields_marshalPrim_append (ts : List PrimType)
    (vs : List PrimValue) (rest : List Nat)
    (h : conformsFields ts vs = true) :
    unmarshalFields ts (vs.map marshalPrim ++ rest) = some (vs, rest) := by
  induction ts generalizing vs with
  | nil => cases vs <;> simp_all [conformsFields, unmarshalFields]
  | cons t ts ih =>
    cases vs with
    | nil => simp [conformsFields] at h
    | cons v vs =>
      simp only [conformsFields, Bool.and_eq_true] at h
      simp only [List.map_cons, List.cons_append, unmarshalFields,
        List.append_eq, ih vs h.2, unmarshalPrim_marshalPrim t v h.1]

theorem unmarshal_marshal_append (td : TypeDesc) (v : Value) (rest : List Nat)
    (h : conforms td v = true) :
    unmarshal td (marshal v ++ rest) = some (v, rest) := by
  cases td with
  | prim t =>
    cases v with
    | prim pv =>
      simp only [conforms] at h
      simp only [marshal, List.cons_append, List.nil_append, unmarshal,
        unmarshalPrim_marshalPrim t pv h]
    | structV _ => simp [conforms] at h
  | tStruct ts =>
    cases v with
    | prim _ => simp [conforms] at h
    | structV vs =>
      simp only [conforms] at h
      simp only [marshal, unmarshal,
        unmarshalFields_marshalPrim_append ts vs rest h]

theorem unmarshalArgs_marshalArgs (tds : List TypeDesc) (args : List Value)
    (h : conformsArgs tds args = true) :
    unmarshalArgs tds (marshalArgs args) = some args := by
  induction tds generalizing args with
  | nil => cases args <;> simp_all [conformsArgs, marshalArgs, unmarshalArgs]
  | cons td tds ih =>
    cases args with
    | nil => simp [conformsArgs] at h
    | cons v vs =>
      simp only [conformsArgs, Bool.and_eq_true] at h
      have hm : marshalArgs (v :: vs) = marshal v ++ marshalArgs vs := by
        simp [marshalArgs]
      rw [hm]
      simp only [unmarshalArgs, unmarshal_marshal_append td v _ h.1, ih vs h.2]

/-- C6: for every native type mappable by the Type-Name Resolver,
`GetTypeName` deterministically produces the canonical descriptor name:
primitives map to fixed builtin names (`uint64_t` to "Uint64",
`Red::CString` to "String"), and every parameterized container maps to a
composite name embedding the recursively resolved element-type name
(`DynArray<Handle<MyClass>>` to "array:handle:MyClass"); the function is
total, so the recursion terminates at any finite nesting depth. -/
theorem getTypeName_canonical :
    GetTypeName RType.uint64 = "Uint64" ∧
    GetTypeName RType.cstring = "String" ∧
    GetTypeName (RType.dynArray (RType.handle (RType.cls "MyClass"))) =
      "array:handle:MyClass" ∧
    (∀ t, GetTypeName (RType.dynArray t) = "array:" ++ GetTypeName t) ∧
    (∀ t, GetTypeName (RType.handle t) = "handle:" ++ GetTypeName t) ∧
    (∀ t, GetTypeName (RType.scriptRef t) = "script_ref:" ++ GetTypeName t) := by
  refine ⟨rfl, rfl, by decide, ?_, ?_, ?_⟩ <;> intro t <;> rfl

/-- C7: for every value of a registered primitive, enum, or flat-struct
type, marshaling it onto the host's stack protocol and unmarshaling it
back yields the value unchanged (round-trip identity of the Stack
Marshaling Layer's call-out write and read-back paths). -/
theorem marshal_roundtrip (td : TypeDesc) (v : Value)
    (h : conforms td v = true) :
    unmarshal td (marshal v) = some (v, []) := by
  have := unmarshal_marshal_append td v [] h
  simpa using this

/-- C7 witness: a flat struct with one negative and one positive
signed-32-bit field survives the round trip. -/
theorem marshal_roundtrip_witness :
    unmarshal (TypeDesc.tStruct [PrimType.tInt32, PrimType.tInt32])
        (marshal (Value.structV [PrimValue.i32 (-3), PrimValue.i32 10])) =
      some (Value.structV [PrimValue.i32 (-3), PrimValue.i32 10], []) :=
  marshal_roundtrip
    (TypeDesc.tStruct [PrimType.tInt32, PrimType.tInt32])
    (Value.structV [PrimValue.i32 (-3), PrimValue.i32 10])
    (by decide)

/-- C9: a non-static instance method registered with `RTTI_METHOD` is
exposed as a static member whose first parameter is the explicit
instance; invoking it through the shim on the marshaled argument list
yields exactly the direct native call's result and instance mutation. -/
theorem methodShim_implicit_self {Inst : Type}
    (m : Inst → List Value → Inst × Value) (tds : List TypeDesc)
    (inst : Inst) (args : List Value)
    (h : conformsArgs tds args = true) :
    methodShim m tds inst (marshalArgs args) = some (m inst args) := by
  simp only [methodShim, unmarshalArgs_marshalArgs tds args h]

/-- C9 witness: the README's `MyStruct::Inc` invoked through the shim on
instance value 11 with argument 5 equals the direct call (yielding the
mutated instance 16 and result 16). -/
theorem methodShim_implicit_self_witness :
    methodShim MyStruct.Inc [TypeDesc.prim PrimType.tInt32] 11
        (marshalArgs [Value.prim (PrimValue.i32 5)]) =
      some (MyStruct.Inc 11 [Value.prim (PrimValue.i32 5)]) :=
  @methodShim_implicit_self Int MyStruct.Inc [TypeDesc.prim PrimType.tInt32]
    11 [Value.prim (PrimValue.i32 5)] (by decide)

/-- C8: every type/class/global-function/method lookup miss at call time
is reported as a recoverable boolean or `notFound` outcome usable as a
feature-detection probe — `HasClass` and `HasGlobalFunction` return
`false`, and the resolution step of `CallGlobal`/`CallStatic`/
`CallVirtual` returns the `notFound` constructor, never a fatal path. -/
theorem lookup_miss_recoverable (sys : RttiSystem)
    (g : String → List Nat → List Nat)
    (m : String → String → List Nat → List Nat)
    (cname fname scls sfn vcls vfn : String)
    (args1 args2 args3 : List Value)
    (hc : (sys.classes.map Prod.fst).contains cname = false)
    (hg : sys.globalFuncs.contains fname = false)
    (hs : hasMethod sys scls sfn = false)
    (hv : hasMethod sys vcls vfn = false) :
    HasClass sys cname = false ∧
    HasGlobalFunction sys fname = false ∧
    CallGlobal g sys fname args1 = CallOutcome.notFound ∧
    CallStatic m sys scls sfn args2 = CallOutcome.notFound ∧
    CallVirtual m sys vcls vfn args3 = CallOutcome.notFound := by
  have hg2 : fname ∉ sys.globalFuncs := by simpa using hg
  refine ⟨hc, hg, ?_, ?_, ?_⟩
  · simp [CallGlobal, HasGlobalFunction, hg2]
  · simp [CallStatic, hs]
  · simp [CallVirtual, hv]

/-- C8 witness: probing the README's examples against a registry that
lacks them — `HasClass "FileSystem"`, `HasGlobalFunction "ParseJson"`,
and call-outs to unregistered members all miss recoverably. -/
theorem lookup_miss_recoverable_witness :
    HasClass { classes := [("Vector4", ["Rand"])], globalFuncs := ["MaxF"] }
        "FileSystem" = false ∧
    HasGlobalFunction { classes := [("Vector4", ["Rand"])], globalFuncs := ["MaxF"] }
        "ParseJson" = false ∧
    CallGlobal (fun _ w => w)
        { classes := [("Vector4", ["Rand"])], globalFuncs := ["MaxF"] }
        "ParseJson" [] = CallOutcome.notFound ∧
    CallStatic (fun _ _ w => w)
        { classes := [("Vector4", ["Rand"])], globalFuncs := ["MaxF"] }
        "Vector4" "Missing" [] = CallOutcome.notFound ∧
    CallVirtual (fun _ _ w => w)
        { classes := [("Vector4", ["Rand"])], globalFuncs := ["MaxF"] }
        "FileSystem" "Exists" [] = CallOutcome.notFound :=
  lookup_miss_recoverable
    { classes := [("Vector4", ["Rand"])], globalFuncs := ["MaxF"] }
    (fun _ w => w) (fun _ _ w => w)
    "FileSystem" "ParseJson" "Vector4" "Missing" "FileSystem" "Exists"
    [] [] [] (by decide) (by decide) (by decide) (by decide)

theorem defaultsOf_length (params : List Param) (ds : List Value)
    (h : defaultsOf params = some ds) : ds.length = params.length := by
  induction params generalizing ds with
  | nil => simp_all [defaultsOf]
  | cons p ps ih =>
    cases hd : p.default with
    | none => simp [defaultsOf, hd] at h
    | some d =>
      cases hr : defaultsOf ps with
      | none => simp [defaultsOf, hd, hr] at h
      | some vs =>
        simp only [defaultsOf, hd, hr, Option.some.injEq] at h
        subst h
        simp [ih vs hr]

theorem readParams_all_defaults (params : List Param) (ds : List Value)
    (h : defaultsOf params = some ds) :
    readParams params [] = some ds := by
  induction params generalizing ds with
  | nil => simp_all [defaultsOf, readParams]
  | cons p ps ih =>
    cases hd : p.default with
    | none => simp [defaultsOf, hd] at h
    | some d =>
      cases hr : defaultsOf ps with
      | none => simp [defaultsOf, hd, hr] at h
      | some vs =>
        simp only [defaultsOf, hd, hr, Option.some.injEq] at h
        subst h
        simp [readParams, hd, ih vs hr]

theorem readParams_fill (params : List Param) (supplied ds : List Value)
    (hlen : supplied.length ≤ params.length)
    (hds : defaultsOf (params.drop supplied.length) = some ds) :
    readParams params supplied = some (supplied ++ ds) := by
  induction supplied generalizing params with
  | nil =>
    simpa using readParams_all_defaults params ds (by simpa using hds)
  | cons v vs ih =>
    cases params with
    | nil => simp at hlen
    | cons p ps =>
      simp only [List.length_cons, Nat.add_le_add_iff_right] at hlen
      simp only [List.length_cons, List.drop_succ_cons] at hds
      simp [readParams, ih ps hlen hds]

theorem readParams_exact (params : List Param) (supplied : List Value)
    (hlen : supplied.length = params.length) :
    readParams params supplied = some supplied := by
  induction params generalizing supplied with
  | nil => cases supplied <;> simp_all [readParams]
  | cons p ps ih =>
    cases supplied with
    | nil => simp at hlen
    | cons v vs =>
      simp only [List.length_cons, Nat.add_right_cancel_iff] at hlen
      simp [readParams, ih vs hlen]

/-- C1: a method whose K trailing parameters are optional-with-default,
invoked through the shim with any trailing run of arguments omitted,
yields the same invocation as supplying the omitted arguments explicitly
with their declared defaults; omission is positional — the supplied
arguments are a prefix and everything after the first omitted parameter
is filled from declared defaults. -/
theorem optional_defaults_fill (native : List Value → Value)
    (params : List Param) (supplied ds : List Value) (frame : StackFrame)
    (outReq : Bool)
    (hlen : supplied.length ≤ params.length)
    (hds : defaultsOf (params.drop supplied.length) = some ds) :
    invokeShim native params supplied frame outReq =
      invokeShim native params (supplied ++ ds) frame outReq := by
  have h1 : readParams params supplied = some (supplied ++ ds) :=
    readParams_fill params supplied ds hlen hds
  have hdl : ds.length = (params.drop supplied.length).length :=
    defaultsOf_length _ ds hds
  have h2 : readParams params (supplied ++ ds) = some (supplied ++ ds) := by
    refine readParams_exact params (supplied ++ ds) ?_
    simp only [List.length_append, List.length_drop] at hdl ⊢
    omega
  unfold invokeShim
  rw [h1, h2]

/-- C1 witness: the README's `MyStruct::Inc` with `step` declared
`Red::Optional<int32_t, 1>` — invoking with zero arguments equals
invoking with the default `1` supplied explicitly, and on instance value
10 both write 11 to the out slot (README scenario). -/
theorem optional_defaults_fill_witness :
    invokeShim (fun args => (MyStruct.Inc 10 args).2) incParams []
        { code := 0, func := none } true =
      invokeShim (fun args => (MyStruct.Inc 10 args).2) incParams
        [Value.prim (PrimValue.i32 1)] { code := 0, func := none } true ∧
    invokeShim (fun args => (MyStruct.Inc 10 args).2) incParams []
        { code := 0, func := none } true =
      some { events := [ShimEvent.callNative [Value.prim (PrimValue.i32 1)],
                        ShimEvent.writeOut (Value.prim (PrimValue.i32 11)),
                        ShimEvent.advanceCursor],
             frame := { code := 1, func := none },
             outWritten := some (Value.prim (PrimValue.i32 11)) } :=
  ⟨optional_defaults_fill (fun args => (MyStruct.Inc 10 args).2) incParams []
      [Value.prim (PrimValue.i32 1)] { code := 0, func := none } true
      (by decide) (by decide),
   by decide⟩

/-- C2: when the host passes a null out slot, a shim invocation calls
the underlying native function exactly once, writes no return location,
and completes (no crash on the null slot). -/
theorem null_out_slot_no_write (native : List Value → Value)
    (params : List Param) (supplied : List Value) (frame : StackFrame)
    (res : ShimResult)
    (h : invokeShim native params supplied frame false = some res) :
    countCalls res.events = 1 ∧ writesOut res.events = false ∧
      res.outWritten = none := by
  unfold invokeShim at h
  cases hr : readParams params supplied with
  | none => rw [hr] at h; exact absurd h (by simp)
  | some args =>
    rw [hr] at h
    simp only [Option.some.injEq] at h
    subst h
    simp [countCalls, writesOut, List.countP_cons, List.countP_nil]

/-- C2 witness: a two-argument addition shim invoked with a null out
slot — one native call, no write, nothing stored. -/
theorem null_out_slot_no_write_witness :
    countCalls
        ({ events := [ShimEvent.callNative
                        [Value.prim (PrimValue.i32 2), Value.prim (PrimValue.i32 5)],
                      ShimEvent.advanceCursor],
           frame := { code := 1, func := none },
           outWritten := none } : ShimResult).events = 1 ∧
    writesOut
        ({ events := [ShimEvent.callNative
                        [Value.prim (PrimValue.i32 2), Value.prim (PrimValue.i32 5)],
                      ShimEvent.advanceCursor],
           frame := { code := 1, func := none },
           outWritten := none } : ShimResult).events = false ∧
    ({ events := [ShimEvent.callNative
                    [Value.prim (PrimValue.i32 2), Value.prim (PrimValue.i32 5)],
                  ShimEvent.advanceCursor],
       frame := { code := 1, func := none },
       outWritten := none } : ShimResult).outWritten = none :=
  null_out_slot_no_write
    (fun args => Value.prim (PrimValue.i32
      (match args with
       | [Value.prim (PrimValue.i32 a), Value.prim (PrimValue.i32 b)] => a + b
       | _ => 0)))
    [{ ty := TypeDesc.prim PrimType.tInt32, default := none },
     { ty := TypeDesc.prim PrimType.tInt32, default := none }]
    [Value.prim (PrimValue.i32 2), Value.prim (PrimValue.i32 5)]
    { code := 0, func := none } _ (by decide)

/-- C3: every shim invocation advances the stack frame's instruction
cursor past the consumed call unconditionally — for the auto-marshaled
shim whatever the out request, and for the README's raw handler
`RawExample::Add` whether or not the out pointer is null. -/
theorem cursor_advance_unconditional
    (native : List Value → Value) (params : List Param)
    (supplied : List Value) (frame : StackFrame) (outReq : Bool)
    (res : ShimResult) (selfCaller : String) (rawFrame : RawFrame)
    (hasOut : Bool)
    (h : invokeShim native params supplied frame outReq = some res) :
    res.frame.code = frame.code + 1 ∧
    (RawExample.Add selfCaller rawFrame hasOut).frame.code =
      rawFrame.code + 1 := by
  refine ⟨?_, rfl⟩
  unfold invokeShim at h
  cases hr : readParams params supplied with
  | none => rw [hr] at h; exact absurd h (by simp)
  | some args =>
    rw [hr] at h
    simp only [Option.some.injEq] at h
    subst h
    rfl

/-- C3 witness: a concrete shim invocation with the out slot requested
and the raw handler with the out pointer null both advance the cursor
from 0 to 1. -/
theorem cursor_advance_unconditional_witness :
    ({ events := [ShimEvent.callNative [],
                  ShimEvent.writeOut (Value.prim (PrimValue.i32 7)),
                  ShimEvent.advanceCursor],
       frame := { code := 1, func := none },
       outWritten := some (Value.prim (PrimValue.i32 7)) } : ShimResult).frame.code
        = 0 + 1 ∧
    (RawExample.Add "Self" { data := [2, 5], code := 0, func := none }
        false).frame.code = 0 + 1 :=
  cursor_advance_unconditional
    (fun _ => Value.prim (PrimValue.i32 7)) [] []
    { code := 0, func := none } true _ "Self"
    { data := [2, 5], code := 0, func := none } false (by decide)

theorem processAll_empty (r : Registry) : processAll r [] = r := by
  simp [processAll, enumThunks, classThunks, globalThunks, expandThunks,
    registerClasses, runPasses]

/-- C5: `TypeInfoRegistrar::RegisterDiscovered()` is idempotent — the
first call drains the pending-registration queue (the drained queue is
handed to the pipeline once and left empty), and any subsequent call
finds an empty queue and leaves the whole registrar state unchanged. -/
theorem registerDiscovered_idempotent (s : RegistrarState) :
    (TypeInfoRegistrar.RegisterDiscovered s).pending = [] ∧
    TypeInfoRegistrar.RegisterDiscovered (TypeInfoRegistrar.RegisterDiscovered s) =
      TypeInfoRegistrar.RegisterDiscovered s := by
  refine ⟨rfl, ?_⟩
  unfold TypeInfoRegistrar.RegisterDiscovered
  simp [processAll_empty]

theorem classReady_finalize_mono (r : Registry) (u t : ClassThunk)
    (h : classReady r t = true) : classReady (finalizeClass r u) t = true := by
  unfold classReady at h ⊢
  cases hp : t.parent with
  | none => rfl
  | some p =>
    rw [hp] at h
    have hm : p ∈ r.classes := by simpa using h
    simp only [finalizeClass]
    have : p ∈ r.classes ++ [u.name] := List.mem_append_left _ hm
    simpa using this

theorem passStep_classes_mono (r : Registry) (q : List ClassThunk)
    (x : String) (h : x ∈ r.classes) : x ∈ (passStep r q).1.classes := by
  induction q generalizing r with
  | nil => simpa [passStep] using h
  | cons u us ih =>
    by_cases hr : classReady r u = true
    · simp only [passStep, hr, if_true]
      exact ih (finalizeClass r u) (by simp [finalizeClass, List.mem_append_left _ h])
    · simp only [passStep, hr, if_false]
      exact ih r h

theorem passStep_gameSystems_mono (r : Registry) (q : List ClassThunk)
    (x : String) (h : x ∈ r.gameSystems) : x ∈ (passStep r q).1.gameSystems := by
  induction q generalizing r with
  | nil => simpa [passStep] using h
  | cons u us ih =>
    by_cases hr : classReady r u = true
    · simp only [passStep, hr, if_true]
      refine ih (finalizeClass r u) ?_
      simp only [finalizeClass]
      by_cases hg : u.isGameSystem <;>
        simp [hg, List.mem_append_left _ h, h]
    · simp only [passStep, hr, if_false]
      exact ih r h

theorem runPasses_classes_mono (n : Nat) (r : Registry) (q : List ClassThunk)
    (x : String) (h : x ∈ r.classes) : x ∈ (runPasses n r q).1.classes := by
  induction n generalizing r q with
  | zero => simpa [runPasses] using h
  | succ n ih =>
    cases q with
    | nil => simpa [runPasses] using h
    | cons u us =>
      simp only [runPasses]
      exact ih _ _ (passStep_classes_mono r (u :: us) x h)

theorem runPasses_gameSystems_mono (n : Nat) (r : Registry) (q : List ClassThunk)
    (x : String) (h : x ∈ r.gameSystems) : x ∈ (runPasses n r q).1.gameSystems := by
  induction n generalizing r q with
  | zero => simpa [runPasses] using h
  | succ n ih =>
    cases q with
    | nil => simpa [runPasses] using h
    | cons u us =>
      simp only [runPasses]
      exact ih _ _ (passStep_gameSystems_mono r (u :: us) x h)

theorem passStep_finalizes_gs (r : Registry) (q : List ClassThunk)
    (t : ClassThunk) (ht : t ∈ q) (hready : classReady r t = true)
    (hgs : t.isGameSystem = true) :
    t.name ∈ (passStep r q).1.gameSystems := by
  induction q generalizing r with
  | nil => simp at ht
  | cons u us ih =>
    rcases List.mem_cons.mp ht with heq | hmem
    · subst heq
      simp only [passStep, hready, if_true]
      refine passStep_gameSystems_mono _ us t.name ?_
      simp [finalizeClass, hgs]
    · by_cases hr : classReady r u = true
      · simp only [passStep, hr, if_true]
        exact ih (finalizeClass r u) hmem (classReady_finalize_mono r u t hready)
      · simp only [passStep, hr, if_false]
        exact ih r hmem hready

theorem registerClasses_gameSystems (r : Registry) (q : List ClassThunk) :
    (registerClasses r q).gameSystems = (runPasses q.length r q).1.gameSystems := by
  unfold registerClasses
  cases h : runPasses q.length r q with
  | mk r2 rem => cases rem <;> simp

/-- C10: a class registered via `RTTI_DEFINE_CLASS` that derives from
`Red::IGameSystem` and whose declared parent (if any) is already
registered is, on completion of the registration pipeline, additionally
registered as a game system, so the game-system accessor retrieves it
with no extra registration step by the author. -/
theorem gameSystem_auto_registered (s : RegistrarState) (t : ClassThunk)
    (hmem : RegThunk.classT t ∈ s.pending)
    (hgs : t.isGameSystem = true)
    (hready : classReady s.reg t = true) :
    GetGameSystem (TypeInfoRegistrar.RegisterDiscovered s).reg t.name =
      some t.name := by
  have htq : t ∈ classThunks s.pending := by
    simp only [classThunks, List.mem_filterMap]
    exact ⟨RegThunk.classT t, hmem, rfl⟩
  have hne : classThunks s.pending ≠ [] := List.ne_nil_of_mem htq
  set q := classThunks s.pending with hq
  obtain ⟨u, us, huq⟩ := List.exists_cons_of_ne_nil hne
  have hlen : q.length = us.length + 1 := by rw [huq]; rfl
  have hready2 : classReady { s.reg with enums := s.reg.enums ++ enumThunks s.pending } t = true := by
    unfold classReady at hready ⊢
    exact hready
  have hgmem : t.name ∈ (runPasses q.length
      { s.reg with enums := s.reg.enums ++ enumThunks s.pending } q).1.gameSystems := by
    rw [hlen, huq]
    simp only [runPasses]
    refine runPasses_gameSystems_mono _ _ _ _ ?_
    refine passStep_finalizes_gs _ _ t ?_ hready2 hgs
    rw [← huq]; exact htq
  have hfinal : t.name ∈ (TypeInfoRegistrar.RegisterDiscovered s).reg.gameSystems := by
    show t.name ∈ (processAll s.reg s.pending).gameSystems
    unfold processAll
    rw [registerClasses_gameSystems]
    exact hgmem
  simp [GetGameSystem, hfinal]

/-- C10 witness: a pending `MyGameSystem` class thunk deriving
`Red::IGameSystem` is retrievable through the game-system accessor after
`RegisterDiscovered`. -/
theorem gameSystem_auto_registered_witness :
    GetGameSystem
        (TypeInfoRegistrar.RegisterDiscovered
          { pending := [RegThunk.classT
              { name := "MyGameSystem", parent := none, isGameSystem := true }],
            reg := { enums := [], classes := [], globals := [],
                     expansions := [], gameSystems := [], errors := [] } }).reg
        "MyGameSystem" = some "MyGameSystem" :=
  gameSystem_auto_registered
    { pending := [RegThunk.classT
        { name := "MyGameSystem", parent := none, isGameSystem := true }],
      reg := { enums := [], classes := [], globals := [],
               expansions := [], gameSystems := [], errors := [] } }
    { name := "MyGameSystem", parent := none, isGameSystem := true }
    (by decide) (by decide) (by decide)

theorem passStep_deferred_sub (r : Registry) (q : List ClassThunk) :
    ∀ x ∈ (passStep r q).2, x ∈ q := by
  induction q generalizing r with
  | nil => simp [passStep]
  | cons u us ih =>
    intro x hx
    by_cases hr : classReady r u = true
    · simp only [passStep, hr, if_true] at hx
      exact List.mem_cons_of_mem u (ih _ x hx)
    · simp only [passStep, hr, if_false] at hx
      rcases List.mem_cons.mp hx with heq | hmem
      · exact heq ▸ List.mem_cons_self u us
      · exact List.mem_cons_of_mem u (ih r x hmem)

theorem passStep_classes_from (r : Registry) (q : List ClassThunk) (x : String)
    (hx : x ∈ (passStep r q).1.classes) :
    x ∈ r.classes ∨ ∃ u ∈ q, u.name = x := by
  induction q generalizing r with
  | nil => exact Or.inl (by simpa [passStep] using hx)
  | cons u us ih =>
    by_cases hr : classReady r u = true
    · simp only [passStep, hr, if_true] at hx
      rcases ih (finalizeClass r u) hx with hin | ⟨v, hv, hname⟩
      · simp only [finalizeClass] at hin
        rcases List.mem_append.mp hin with h1 | h2
        · exact Or.inl h1
        · exact Or.inr ⟨u, List.mem_cons_self u us, (List.mem_singleton.mp h2).symm⟩
      · exact Or.inr ⟨v, List.mem_cons_of_mem u hv, hname⟩
    · simp only [passStep, hr, if_false] at hx
      rcases ih r hx with hin | ⟨v, hv, hname⟩
      · exact Or.inl hin
      · exact Or.inr ⟨v, List.mem_cons_of_mem u hv, hname⟩

theorem passStep_finalized_or_deferred (r : Registry) (q : List ClassThunk)
    (t : ClassThunk) (ht : t ∈ q) :
    t ∈ (passStep r q).2 ∨ t.name ∈ (passStep r q).1.classes := by
  induction q generalizing r with
  | nil => simp at ht
  | cons u us ih =>
    rcases List.mem_cons.mp ht with heq | hmem
    · subst heq
      by_cases hr : classReady r t = true
      · simp only [passStep, hr, if_true]
        refine Or.inr (passStep_classes_mono _ us t.name ?_)
        simp [finalizeClass]
      · simp only [passStep, hr, if_false]
        exact Or.inl (List.mem_cons_self t _)
    · by_cases hr : classReady r u = true
      · simp only [passStep, hr, if_true]
        exact ih (finalizeClass r u) hmem
      · simp only [passStep, hr, if_false]
        rcases ih r hmem with h1 | h2
        · exact Or.inl (List.mem_cons_of_mem u h1)
        · exact Or.inr h2

theorem passStep_deferred_len_le (r : Registry) (q : List ClassThunk) :
    (passStep r q).2.length ≤ q.length := by
  induction q generalizing r with
  | nil => simp [passStep]
  | cons u us ih =>
    by_cases hr : classReady r u = true
    · simp only [passStep, hr, if_true]
      exact Nat.le_succ_of_le (ih (finalizeClass r u))
    · simp only [passStep, hr, if_false, List.length_cons]
      exact Nat.succ_le_succ (ih r)

theorem passStep_progress (r : Registry) (q : List ClassThunk)
    (h : ∃ t ∈ q, classReady r t = true) :
    (passStep r q).2.length < q.length := by
  induction q generalizing r with
  | nil => obtain ⟨t, ht, _⟩ := h; simp at ht
  | cons u us ih =>
    by_cases hr : classReady r u = true
    · simp only [passStep, hr, if_true, List.length_cons]
      exact Nat.lt_succ_of_le (passStep_deferred_len_le (finalizeClass r u) us)
    · obtain ⟨t, ht, hready⟩ := h
      rcases List.mem_cons.mp ht with heq | hmem
      · exact absurd (heq ▸ hready) hr
      · simp only [passStep, hr, if_false, List.length_cons]
        exact Nat.succ_lt_succ (ih r ⟨t, hmem, hready⟩)

theorem passStep_errors (r : Registry) (q : List ClassThunk) :
    (passStep r q).1.errors = r.errors := by
  induction q generalizing r with
  | nil => rfl
  | cons u us ih =>
    by_cases hr : classReady r u = true
    · simp only [passStep, hr, if_true]
      exact (ih (finalizeClass r u)).trans rfl
    · simp only [passStep, hr, if_false]
      exact ih r

theorem runPasses_errors (n : Nat) (r : Registry) (q : List ClassThunk) :
    (runPasses n r q).1.errors = r.errors := by
  induction n generalizing r q with
  | zero => rfl
  | succ n ih =>
    cases q with
    | nil => rfl
    | cons u us =>
      simp only [runPasses]
      exact (ih _ _).trans (passStep_errors r (u :: us))

theorem runPasses_finalized_or_deferred (n : Nat) (r : Registry)
    (q : List ClassThunk) (t : ClassThunk) (ht : t ∈ q) :
    t ∈ (runPasses n r q).2 ∨ t.name ∈ (runPasses n r q).1.classes := by
  induction n generalizing r q with
  | zero => exact Or.inl ht
  | succ n ih =>
    cases q with
    | nil => simp at ht
    | cons u us =>
      simp only [runPasses]
      rcases passStep_finalized_or_deferred r (u :: us) t ht with h1 | h2
      · exact ih _ _ h1
      · exact Or.inr (runPasses_classes_mono n _ _ t.name h2)

theorem exists_min_by {α : Type} (f : α → Nat) (l : List α) (h : l ≠ []) :
    ∃ t ∈ l, ∀ u ∈ l, f t ≤ f u := by
  induction l with
  | nil => exact absurd rfl h
  | cons a as ih =>
    cases as with
    | nil => exact ⟨a, List.mem_singleton.mpr rfl, by simp⟩
    | cons b bs =>
      obtain ⟨t, htm, hmin⟩ := ih (by simp)
      by_cases hle : f a ≤ f t
      · refine ⟨a, List.mem_cons_self a _, ?_⟩
        intro u hu
        rcases List.mem_cons.mp hu with heq | hu2
        · exact heq ▸ Nat.le_refl _
        · exact Nat.le_trans hle (hmin u hu2)
      · refine ⟨t, List.mem_cons_of_mem a htm, ?_⟩
        intro u hu
        rcases List.mem_cons.mp hu with heq | hu2
        · subst heq; omega
        · exact hmin u hu2

theorem resolvable_spec (rank : String → Nat) (r : Registry)
    (q : List ClassThunk) :
    resolvableWith rank r q = true ↔
      ∀ t ∈ q, ∀ p, t.parent = some p →
        p ∈ r.classes ∨ ∃ u ∈ q, u.name = p ∧ rank p < rank t.name := by
  unfold resolvableWith
  rw [List.all_eq_true]
  constructor
  · intro h t ht p hp
    have h2 := h t ht
    rw [hp, Bool.or_eq_true] at h2
    rcases h2 with h3 | h3
    · exact Or.inl (by simpa using h3)
    · right
      rw [List.any_eq_true] at h3
      obtain ⟨u, hu, hcond⟩ := h3
      rw [Bool.and_eq_true] at hcond
      exact ⟨u, hu, by simpa using hcond.1, by simpa using hcond.2⟩
  · intro h t ht
    cases hp : t.parent with
    | none => rfl
    | some p =>
      rw [Bool.or_eq_true]
      rcases h t ht p hp with h1 | ⟨u, hu, hname, hrank⟩
      · exact Or.inl (by simpa using h1)
      · refine Or.inr ?_
        rw [List.any_eq_true]
        refine ⟨u, hu, ?_⟩
        rw [Bool.and_eq_true]
        exact ⟨by simpa using hname, by simpa using hrank⟩

theorem resolvable_ready (rank : String → Nat) (r : Registry)
    (q : List ClassThunk) (hne : q ≠ [])
    (hres : resolvableWith rank r q = true) :
    ∃ t ∈ q, classReady r t = true := by
  obtain ⟨t, htm, hmin⟩ := exists_min_by (fun u => rank u.name) q hne
  refine ⟨t, htm, ?_⟩
  unfold classReady
  cases hp : t.parent with
  | none => rfl
  | some p =>
    rcases (resolvable_spec rank r q).mp hres t htm p hp with h1 | ⟨u, hu, hname, hrank⟩
    · simpa using h1
    · have := hmin u hu
      rw [hname] at this
      omega

theorem resolvable_preserved (rank : String → Nat) (r : Registry)
    (q : List ClassThunk) (hres : resolvableWith rank r q = true) :
    resolvableWith rank (passStep r q).1 (passStep r q).2 = true := by
  rw [resolvable_spec]
  intro t ht2 p hp
  have ht := passStep_deferred_sub r q t ht2
  rcases (resolvable_spec rank r q).mp hres t ht p hp with h1 | ⟨u, hu, hname, hrank⟩
  · exact Or.inl (passStep_classes_mono r q p h1)
  · rcases passStep_finalized_or_deferred r q u hu with h2 | h2
    · exact Or.inr ⟨u, h2, hname, hrank⟩
    · exact Or.inl (hname ▸ h2)

theorem runPasses_success (rank : String → Nat) (n : Nat) (r : Registry)
    (q : List ClassThunk) (hn : q.length ≤ n)
    (hres : resolvableWith rank r q = true) :
    (runPasses n r q).2 = [] := by
  induction n generalizing r q with
  | zero =>
    cases q with
    | nil => rfl
    | cons u us => simp at hn
  | succ n ih =>
    cases q with
    | nil => rfl
    | cons u us =>
      simp only [runPasses]
      refine ih _ _ ?_ (resolvable_preserved rank r (u :: us) hres)
      have hprog : (passStep r (u :: us)).2.length < (u :: us).length :=
        passStep_progress r (u :: us)
          (resolvable_ready rank r (u :: us) (by simp) hres)
      omega

theorem passStep_finalizes_classes (r : Registry) (q : List ClassThunk)
    (t : ClassThunk) (ht : t ∈ q) (hready : classReady r t = true) :
    t.name ∈ (passStep r q).1.classes := by
  induction q generalizing r with
  | nil => simp at ht
  | cons u us ih =>
    rcases List.mem_cons.mp ht with heq | hmem
    · subst heq
      simp only [passStep, hready, if_true]
      refine passStep_classes_mono _ us t.name ?_
      simp [finalizeClass]
    · by_cases hr : classReady r u = true
      · simp only [passStep, hr, if_true]
        exact ih (finalizeClass r u) hmem (classReady_finalize_mono r u t hready)
      · simp only [passStep, hr, if_false]
        exact ih r hmem hready

theorem groundedChain_head_mem (r : Registry) (q : List ClassThunk)
    (c : ClassThunk) (rest : List ClassThunk)
    (h : groundedChain r q (c :: rest) = true) : c ∈ q := by
  cases rest with
  | nil =>
    simp only [groundedChain, Bool.and_eq_true] at h
    simpa using h.1
  | cons d rest =>
    simp only [groundedChain, Bool.and_eq_true] at h
    simpa using h.1.1

theorem chain_step (r : Registry) (q : List ClassThunk) :
    ∀ (rest : List ClassThunk) (c : ClassThunk),
      groundedChain r q (c :: rest) = true →
      c.name ∈ (passStep r q).1.classes ∨
        ∃ rest2,
          groundedChain (passStep r q).1 (passStep r q).2 (c :: rest2) = true ∧
            rest2.length < rest.length := by
  intro rest
  induction rest with
  | nil =>
    intro c hg
    simp only [groundedChain, Bool.and_eq_true] at hg
    exact Or.inl (passStep_finalizes_classes r q c (by simpa using hg.1) hg.2)
  | cons d rest ih =>
    intro c hg
    simp only [groundedChain, Bool.and_eq_true] at hg
    obtain ⟨⟨hcq, hcp⟩, hgd⟩ := hg
    have hcq2 : c ∈ q := by simpa using hcq
    have hcp2 : c.parent = some d.name := by simpa using hcp
    rcases passStep_finalized_or_deferred r q c hcq2 with hdef | hfin
    · rcases ih d hgd with hdfin | ⟨rr, hgr, hlen⟩
      · refine Or.inr ⟨[], ?_, by simp⟩
        simp only [groundedChain, Bool.and_eq_true]
        refine ⟨List.elem_eq_true_of_mem hdef, ?_⟩
        simp only [classReady, hcp2]
        exact List.elem_eq_true_of_mem hdfin
      · refine Or.inr ⟨d :: rr, ?_, by simpa using Nat.succ_lt_succ hlen⟩
        simp only [groundedChain, Bool.and_eq_true]
        exact ⟨⟨List.elem_eq_true_of_mem hdef, hcp⟩, hgr⟩
    · exact Or.inl hfin

theorem runPasses_chain (n : Nat) (r : Registry) (q : List ClassThunk)
    (c : ClassThunk) (rest : List ClassThunk)
    (hg : groundedChain r q (c :: rest) = true) (hlen : rest.length < n) :
    c.name ∈ (runPasses n r q).1.classes := by
  induction n generalizing r q rest with
  | zero => exact absurd hlen (Nat.not_lt_zero _)
  | succ n ih =>
    have hcq : c ∈ q := groundedChain_head_mem r q c rest hg
    obtain ⟨u, us, hq⟩ := List.exists_cons_of_ne_nil (List.ne_nil_of_mem hcq)
    subst hq
    simp only [runPasses]
    rcases chain_step r (u :: us) rest c hg with hfin | ⟨rest2, hg2, hlen2⟩
    · exact runPasses_classes_mono n _ _ c.name hfin
    · exact ih _ _ rest2 hg2 (by omega)

theorem registerClasses_classes (r : Registry) (q : List ClassThunk) :
    (registerClasses r q).classes = (runPasses q.length r q).1.classes := by
  unfold registerClasses
  split <;> rfl

theorem blockedSet_spec (r : Registry) (q blocked : List ClassThunk) :
    blockedSet r q blocked = true ↔
      ∀ u ∈ blocked, ∃ p, u.parent = some p ∧ u ∈ q ∧ p ∉ r.classes ∧
        ∀ v ∈ q, v.name = p → v ∈ blocked := by
  unfold blockedSet
  rw [List.all_eq_true]
  constructor
  · intro h u hu
    have h2 := h u hu
    cases hp : u.parent with
    | none => rw [hp] at h2; simp at h2
    | some p =>
      rw [hp] at h2
      simp only [Bool.and_eq_true] at h2
      obtain ⟨⟨hq, hnr⟩, hall⟩ := h2
      refine ⟨p, rfl, by simpa using hq, by simpa using hnr, ?_⟩
      intro v hv hname
      have h3 := List.all_eq_true.mp hall v hv
      rw [Bool.or_eq_true] at h3
      rcases h3 with h4 | h4
      · exact absurd hname (by simpa using h4)
      · simpa using h4
  · intro h u hu
    obtain ⟨p, hp, huq, hnr, hclos⟩ := h u hu
    rw [hp]
    simp only [Bool.and_eq_true]
    refine ⟨⟨List.elem_eq_true_of_mem huq, by simpa using hnr⟩, ?_⟩
    rw [List.all_eq_true]
    intro v hv
    rw [Bool.or_eq_true]
    by_cases hname : v.name = p
    · exact Or.inr (List.elem_eq_true_of_mem (hclos v hv hname))
    · exact Or.inl (by simpa using hname)

theorem passStep_blocked (q0 blocked : List ClassThunk)
    (hblk : ∀ u ∈ blocked, ∃ p, u.parent = some p ∧
      ∀ v ∈ q0, v.name = p → v ∈ blocked) :
    ∀ (q : List ClassThunk) (r : Registry),
      (∀ x ∈ q, x ∈ q0) →
      (∀ u ∈ blocked, ∀ p, u.parent = some p → p ∉ r.classes) →
      (∀ u ∈ blocked, u ∈ q → u ∈ (passStep r q).2) ∧
      (∀ u ∈ blocked, ∀ p, u.parent = some p → p ∉ (passStep r q).1.classes) := by
  intro q
  induction q with
  | nil =>
    intro r hq hsafe
    exact ⟨fun u hu hmem => absurd hmem (by simp),
      fun u hu p hp => hsafe u hu p hp⟩
  | cons w ws ih =>
    intro r hq hsafe
    by_cases hr : classReady r w = true
    · have hwnb : w ∉ blocked := by
        intro hwb
        obtain ⟨p, hpw, _⟩ := hblk w hwb
        have hnot : p ∉ r.classes := hsafe w hwb p hpw
        unfold classReady at hr
        rw [hpw] at hr
        exact hnot (by simpa using hr)
      have hsafe2 : ∀ u ∈ blocked, ∀ p, u.parent = some p →
          p ∉ (finalizeClass r w).classes := by
        intro u hu p hp hcon
        simp only [finalizeClass] at hcon
        rcases List.mem_append.mp hcon with h1 | h2
        · exact hsafe u hu p hp h1
        · obtain ⟨p', hp', hclos'⟩ := hblk u hu
          rw [hp] at hp'
          obtain rfl : p = p' := Option.some.inj hp'
          exact hwnb (hclos' w (hq w (List.mem_cons_self w ws))
            (List.mem_singleton.mp h2).symm)
      have hrec := ih (finalizeClass r w)
        (fun x hx => hq x (List.mem_cons_of_mem w hx)) hsafe2
      refine ⟨?_, ?_⟩
      · intro u hu hmem
        rcases List.mem_cons.mp hmem with heq | hm2
        · exact absurd (heq ▸ hu) hwnb
        · simpa [passStep, hr] using hrec.1 u hu hm2
      · intro u hu p hp
        simpa [passStep, hr] using hrec.2 u hu p hp
    · have hrec := ih r (fun x hx => hq x (List.mem_cons_of_mem w hx)) hsafe
      refine ⟨?_, ?_⟩
      · intro u hu hmem
        simp only [passStep, hr, if_false]
        rcases List.mem_cons.mp hmem with heq | hm2
        · exact heq ▸ List.mem_cons_self w _
        · exact List.mem_cons_of_mem w (hrec.1 u hu hm2)
      · intro u hu p hp
        simpa [passStep, hr] using hrec.2 u hu p hp

theorem runPasses_blocked (q0 blocked : List ClassThunk)
    (hblk : ∀ u ∈ blocked, ∃ p, u.parent = some p ∧
      ∀ v ∈ q0, v.name = p → v ∈ blocked) :
    ∀ (n : Nat) (q : List ClassThunk) (r : Registry),
      (∀ x ∈ q, x ∈ q0) →
      (∀ u ∈ blocked, ∀ p, u.parent = some p → p ∉ r.classes) →
      ∀ u ∈ blocked, u ∈ q → u ∈ (runPasses n r q).2 := by
  intro n
  induction n with
  | zero => exact fun q r hq hsafe u hu hmem => hmem
  | succ n ih =>
    intro q r hq hsafe u hu hmem
    cases q with
    | nil => simp at hmem
    | cons w ws =>
      simp only [runPasses]
      have hps := passStep_blocked q0 blocked hblk (w :: ws) r hq hsafe
      exact ih _ _ (fun x hx => hq x (passStep_deferred_sub r (w :: ws) x hx))
        hps.2 u hu (hps.1 u hu hmem)

/-- C4: class thunks whose parent is not yet Finalized are deferred and
retried in full passes, bounded by the queue depth (`registerClasses`
runs exactly `q.length` passes and is a total function, so the pipeline
always terminates).  Per thunk: if the thunk's parent chain grounds out
within the queue (its parent thunk is eventually processed), the thunk
is finalized within the bounded passes, whatever else is queued; if the
whole queue is resolvable, every class is finalized and no error is
reported; and if the thunk belongs to a blocked set — its parent is
never registered, covering both a parent missing from the queue and a
parent cycle — the pipeline reports a hard registration failure naming
the class instead of looping forever or silently skipping it. -/
theorem parent_resolution_bounded (rank : String → Nat) (r : Registry)
    (q : List ClassThunk) (t : ClassThunk)
    (chain blocked : List ClassThunk) :
    (groundedChain r q (t :: chain) = true → chain.length < q.length →
       t.name ∈ (registerClasses r q).classes) ∧
    (resolvableWith rank r q = true →
       (registerClasses r q).errors = r.errors ∧
       ∀ u ∈ q, u.name ∈ (registerClasses r q).classes) ∧
    (t ∈ blocked → blockedSet r q blocked = true →
       ("unresolved parent for class " ++ t.name) ∈
         (registerClasses r q).errors) := by
  refine ⟨?_, ?_, ?_⟩
  · intro hg hlen
    rw [registerClasses_classes]
    exact runPasses_chain q.length r q t chain hg hlen
  · intro hres
    have hrem : (runPasses q.length r q).2 = [] :=
      runPasses_success rank q.length r q (Nat.le_refl _) hres
    have hreg : registerClasses r q = (runPasses q.length r q).1 := by
      unfold registerClasses
      rw [hrem]
      simp
    constructor
    · rw [hreg]
      exact runPasses_errors _ _ _
    · intro u hu
      rw [hreg]
      rcases runPasses_finalized_or_deferred q.length r q u hu with h1 | h2
      · rw [hrem] at h1
        simp at h1
      · exact h2
  · intro htb hbs
    rw [blockedSet_spec] at hbs
    have hblk : ∀ u ∈ blocked, ∃ p, u.parent = some p ∧
        ∀ v ∈ q, v.name = p → v ∈ blocked := by
      intro u hu
      obtain ⟨p, hp, _, _, hclos⟩ := hbs u hu
      exact ⟨p, hp, hclos⟩
    have hsafe : ∀ u ∈ blocked, ∀ p, u.parent = some p → p ∉ r.classes := by
      intro u hu p hp
      obtain ⟨p', hp', _, hnr, _⟩ := hbs u hu
      rw [hp] at hp'
      obtain rfl : p = p' := Option.some.inj hp'
      exact hnr
    have htq : t ∈ q := by
      obtain ⟨p, _, htq2, _, _⟩ := hbs t htb
      exact htq2
    have hstuck : t ∈ (runPasses q.length r q).2 :=
      runPasses_blocked q blocked hblk q.length q r (fun x hx => hx)
        hsafe t htb htq
    unfold registerClasses
    cases hL : (runPasses q.length r q).2 with
    | nil => rw [hL] at hstuck; simp at hstuck
    | cons a l =>
      rw [hL] at hstuck
      simp only [hL, List.isEmpty_cons, Bool.false_eq_true, if_false]
      exact List.mem_append_right _
        (List.mem_map_of_mem (fun u => "unresolved parent for class " ++ u.name)
          hstuck)

/-- C4 witness: the README's A/B/C inheritance chain queued in reverse
declaration order (child thunks before their parents) finalizes fully
with no error within queue-depth passes — class C through its explicit
grounded parent chain C, B, A — while a class whose parent is missing
from the queue and both members of a B/C parent cycle are reported as
hard failures. -/
theorem parent_resolution_bounded_witness :
    "C" ∈ (registerClasses
        { enums := [], classes := [], globals := [], expansions := [],
          gameSystems := [], errors := [] }
        [{ name := "C", parent := some "B", isGameSystem := false },
         { name := "B", parent := some "A", isGameSystem := false },
         { name := "A", parent := none, isGameSystem := false }]).classes ∧
    (registerClasses
        { enums := [], classes := [], globals := [], expansions := [],
          gameSystems := [], errors := [] }
        [{ name := "C", parent := some "B", isGameSystem := false },
         { name := "B", parent := some "A", isGameSystem := false },
         { name := "A", parent := none, isGameSystem := false }]).errors =
      ({ enums := [], classes := [], globals := [], expansions := [],
         gameSystems := [], errors := [] } : Registry).errors ∧
    ("unresolved parent for class " ++ "Orphan") ∈
      (registerClasses
        { enums := [], classes := [], globals := [], expansions := [],
          gameSystems := [], errors := [] }
        [{ name := "Orphan", parent := some "Missing", isGameSystem := false }]).errors ∧
    ("unresolved parent for class " ++ "B") ∈
      (registerClasses
        { enums := [], classes := [], globals := [], expansions := [],
          gameSystems := [], errors := [] }
        [{ name := "B", parent := some "C", isGameSystem := false },
         { name := "C", parent := some "B", isGameSystem := false }]).errors :=
  ⟨(parent_resolution_bounded (fun _ => 0)
      { enums := [], classes := [], globals := [], expansions := [],
        gameSystems := [], errors := [] }
      [{ name := "C", parent := some "B", isGameSystem := false },
       { name := "B", parent := some "A", isGameSystem := false },
       { name := "A", parent := none, isGameSystem := false }]
      { name := "C", parent := some "B", isGameSystem := false }
      [{ name := "B", parent := some "A", isGameSystem := false },
       { name := "A", parent := none, isGameSystem := false }]
      []).1 (by decide) (by decide),
   ((parent_resolution_bounded
      (fun n => if n = "A" then 0 else if n = "B" then 1 else 2)
      { enums := [], classes := [], globals := [], expansions := [],
        gameSystems := [], errors := [] }
      [{ name := "C", parent := some "B", isGameSystem := false },
       { name := "B", parent := some "A", isGameSystem := false },
       { name := "A", parent := none, isGameSystem := false }]
      { name := "C", parent := some "B", isGameSystem := false }
      [] []).2.1 (by decide)).1,
   (parent_resolution_bounded (fun _ => 0)
      { enums := [], classes := [], globals := [], expansions := [],
        gameSystems := [], errors := [] }
      [{ name := "Orphan", parent := some "Missing", isGameSystem := false }]
      { name := "Orphan", parent := some "Missing", isGameSystem := false }
      []
      [{ name := "Orphan", parent := some "Missing", isGameSystem := false }]).2.2
     (by decide) (by decide),
   (parent_resolution_bounded (fun _ => 0)
      { enums := [], classes := [], globals := [], expansions := [],
        gameSystems := [], errors := [] }
      [{ name := "B", parent := some "C", isGameSystem := false },
       { name := "C", parent := some "B", isGameSystem := false }]
      { name := "B", parent := some "C", isGameSystem := false }
      []
      [{ name := "B", parent := some "C", isGameSystem := false },
       { name := "C", parent := some "B", isGameSystem := false }]).2.2
     (by decide) (by decide)⟩

end RedLib
